import Mathlib

/-!
Verification development for the ollama-chat hashtag pipeline and
streaming-response assembler.

The definitions below are a shallow embedding of the JavaScript source:

* `src/utils/tag-utils.js` — `originalProcessHashtags` / `processHashtags`
  (the tag reuse resolver and its diagnostic wrapper);
* `src/services/hashtag-service.js` — `shouldExcludeWord`,
  `extractKeywords`, `filterBlockedTags`, `formatHashtags`,
  `extractHashtagsFromResponse`, `extractHashtags`;
* `src/unnamed/part_007` — the `response.data.on('data')` stream handler
  and `processCompletedResponse`.

JavaScript strings are modelled as Lean `String` (`List Char` data);
JavaScript's `String.prototype.trim`, `toLowerCase`, `replace(/^#/ , ...)`
and the few regexes the source uses are implemented character by
character.  The relational store behind `db.pool.query` is modelled as a
`DBState` that is either reachable (carrying the `blocked_tags` rows and
`tag_synonyms` rows) or down (every query throws).  `JSON.parse` is
modelled by an executable parser for the JSON fragment the stream
carries (objects, arrays, strings, numbers, booleans, null; numeric
literals are mantissa/exponent pairs, which is enough to decide JS
truthiness).
-/

namespace OllamaChat

/-! ### JavaScript character classes and basic string operations -/

/-- Whitespace as matched by the source's `\s` regex class and by
`String.prototype.trim` (ASCII part). -/
def jsWs (c : Char) : Bool :=
  c = ' ' || c = '\t' || c = '\n' || c = '\r' || c = '\x0b' || c = '\x0c'

/-- Drop trailing characters satisfying `p`. -/
def dropTrailWhile (p : Char → Bool) (l : List Char) : List Char :=
  (l.reverse.dropWhile p).reverse

/-- `String.prototype.trim` on character lists. -/
def trimL (l : List Char) : List Char :=
  dropTrailWhile jsWs (l.dropWhile jsWs)

/-- `String.prototype.trim`. -/
def strim (s : String) : String := ⟨trimL s.data⟩

/-- `String.prototype.toLowerCase` (ASCII). -/
def sToLower (s : String) : String := ⟨s.data.map Char.toLower⟩

/-- `tag.replace(/^#/, '')`: remove one leading `#` if present. -/
def dropOneHash (s : String) : String :=
  match s.data with
  | '#' :: rest => ⟨rest⟩
  | _ => s

/-- `tag.startsWith('#') ? tag : '#' + tag` on character lists. -/
def ensureHashL (l : List Char) : List Char :=
  match l with
  | '#' :: _ => l
  | _ => '#' :: l

/-- `tag.startsWith('#') ? tag : '#' + tag`. -/
def ensureHash (s : String) : String := ⟨ensureHashL s.data⟩

/-- The `/^\d+$/` test: non-empty and all ASCII digits. -/
def isAllDigits (s : String) : Bool :=
  !s.data.isEmpty && s.data.all Char.isDigit

/-- JavaScript `\w` class: `[A-Za-z0-9_]`. -/
def jsWordChar (c : Char) : Bool :=
  c.isAlpha || c.isDigit || c = '_'

/-- The `[a-zA-Z0-9_-]` class of the inline hashtag regex. -/
def tagChar (c : Char) : Bool :=
  c.isAlpha || c.isDigit || c = '_' || c = '-'

/-- First-occurrence de-duplication, the order `[...new Set(xs)]`
produces in JavaScript. -/
def dedupFirst {α : Type} [DecidableEq α] (seen : List α) : List α → List α
  | [] => []
  | a :: rest =>
    if a ∈ seen then dedupFirst seen rest
    else a :: dedupFirst (a :: seen) rest

/-! ### Stopword list and exclusion filter (`hashtag-service.js` lines 7-32) -/

/-- `COMMON_WORDS_TO_EXCLUDE` transcribed from `hashtag-service.js`. -/
def COMMON_WORDS_TO_EXCLUDE : List String := [
  "a", "about", "above", "after", "again", "against", "all", "almost",
  "along", "already", "also", "although", "always", "am", "among", "an",
  "and", "another", "any", "anybody", "anyone", "anything", "anywhere", "are",
  "are not", "around", "as", "at", "back", "be", "because", "been",
  "before", "being", "below", "between", "both", "but", "by", "can",
  "cannot", "could", "could not", "did", "did not", "do", "does", "does not",
  "doing", "do not", "down", "during", "each", "either", "else", "enough",
  "even", "ever", "every", "everybody", "everyone", "everything", "everywhere", "except",
  "few", "for", "from", "further", "get", "gets", "getting", "give",
  "given", "gives", "go", "goes", "going", "gone", "got", "gotten",
  "had", "had not", "has", "has not", "have", "have not", "having", "he",
  "he would", "he will", "he is", "her", "here", "here is", "hers", "herself",
  "him", "himself", "his", "how", "how is", "however", "i", "i would",
  "i will", "i am", "i have", "if", "in", "inside", "instead", "into",
  "is", "is not", "it", "it is", "its", "itself", "just", "keep",
  "keeps", "kept", "kind", "knew", "know", "known", "knows", "last",
  "later", "least", "less", "let", "let us", "like", "likely", "long",
  "made", "make", "makes", "making", "many", "may", "maybe", "me",
  "mean", "meant", "means", "might", "might not", "mine", "more", "most",
  "mostly", "much", "must", "must not", "my", "myself", "name", "namely",
  "near", "need", "needs", "neither", "never", "next", "no", "nobody",
  "non", "none", "nor", "not", "nothing", "now", "nowhere", "of",
  "off", "often", "oh", "on", "once", "one", "only", "onto",
  "or", "other", "others", "otherwise", "ought", "our", "ours", "ourselves",
  "out", "over", "own", "part", "particular", "particularly", "past", "per",
  "perhaps", "place", "please", "point", "possible", "probably", "put", "puts",
  "quite", "rather", "really", "regarding", "right", "said", "same", "saw",
  "say", "saying", "says", "second", "see", "seem", "seemed", "seeming",
  "seems", "seen", "self", "selves", "sent", "several", "shall", "shall not",
  "she", "she would", "she will", "she is", "should", "should not", "since", "so",
  "some", "somebody", "someone", "something", "sometime", "sometimes", "somewhere", "soon",
  "still", "such", "sure", "take", "taken", "taking", "talked", "tell",
  "tends", "than", "that", "that is", "the", "their", "theirs", "them",
  "themselves", "then", "there", "there is", "thereafter", "thereby", "therefore", "therein",
  "thereupon", "these", "they", "they would", "they will", "they are", "they have", "thing",
  "things", "think", "thinks", "this", "those", "though", "thought", "through",
  "throughout", "thus", "till", "to", "together", "too", "took", "toward",
  "towards", "tried", "tries", "truly", "try", "trying", "twice", "under",
  "underneath", "undo", "unfortunately", "unless", "unlike", "unlikely", "until", "unto",
  "up", "upon", "us", "use", "used", "uses", "using", "usually",
  "value", "various", "very", "via", "view", "want", "wants", "was",
  "was not", "way", "we", "we would", "we will", "we are", "we have", "well",
  "went", "were", "were not", "what", "what is", "whatever", "when", "whence",
  "whenever", "where", "where is", "whereafter", "whereas", "whereby", "wherein", "whereupon",
  "wherever", "whether", "which", "while", "whither", "who", "who is", "whoever",
  "whole", "whom", "whose", "why", "why is", "will", "willing", "wish",
  "with", "within", "without", "will not", "wonder", "would", "would not", "yes",
  "yet", "you", "you would", "you will", "you are", "you have", "your", "youre",
  "yours", "yourself", "yourselves"
]

/-- `shouldExcludeWord` (`hashtag-service.js` lines 12-32): stopword, or
shorter than 3 characters, or purely numeric — on the lower-cased,
trimmed word. -/
def shouldExcludeWord (word : String) : Bool :=
  let lowerWord := strim (sToLower word)
  if COMMON_WORDS_TO_EXCLUDE.contains lowerWord then true
  else if lowerWord.length < 3 then true
  else if isAllDigits lowerWord then true
  else false

/-! ### JavaScript values

A small model of the JavaScript values the tag pipeline can receive:
`null`, `undefined`, booleans, numbers, strings, arrays and plain
objects (fields in insertion order).  Numbers are mantissa/exponent
pairs (`num m e` stands for `m * 10 ^ e`), which decides JS truthiness
and represents every numeric literal the JSON stream can carry. -/

inductive JVal : Type where
  | null : JVal
  | undef : JVal
  | bool : Bool → JVal
  | num : Int → Int → JVal
  | str : String → JVal
  | arr : List JVal → JVal
  | obj : List (String × JVal) → JVal

/-- JavaScript truthiness. -/
def jtruthy : JVal → Bool
  | .null => false
  | .undef => false
  | .bool b => b
  | .num m _ => m != 0
  | .str s => !s.data.isEmpty
  | .arr _ => true
  | .obj _ => true

mutual

/-- `String(v)`: JavaScript string coercion (integer numbers print as
their decimal form; a non-integer exponent form is printed `mEe`, a
display-only approximation of JS float formatting). -/
def jsToStr : JVal → String
  | .null => "null"
  | .undef => "undefined"
  | .bool true => "true"
  | .bool false => "false"
  | .num m e => if e = 0 then toString m else toString m ++ "e" ++ toString e
  | .str s => s
  | .arr l => jsToStrList l
  | .obj _ => "[object Object]"

/-- `Array.prototype.toString`: elements joined with `,`, with `null`
and `undefined` rendered empty. -/
def jsToStrList : List JVal → String
  | [] => ""
  | v :: rest =>
    (if v matches .null || v matches .undef then "" else jsToStr v) ++
      (if rest.isEmpty then "" else "," ++ jsToStrList rest)

end

/-- Property lookup on a parsed JSON object: `obj` fields with the
last-written value winning (as `JSON.parse` does for duplicate keys);
on any non-object the property reads as `undefined` (`none`).  Reading
a property of `null` throws in JavaScript; callers model that case
explicitly. -/
def olookup (fields : List (String × JVal)) (k : String) : Option JVal :=
  ((fields.filter (fun p => p.1 == k)).getLast?).map (fun p => p.2)

/-! ### The backing store

`db.pool.query('SELECT tag_name FROM blocked_tags')` and
`db.pool.query('SELECT original_tag, better_tag FROM tag_synonyms')`
either both succeed (state `ok` carrying the rows) or throw (state
`down`, the unreachable-database case). -/

inductive DBState : Type where
  | ok (blockedRows : List String) (synonymRows : List (String × String)) : DBState
  | down : DBState

/-- The synonym map built by
`tagSynonyms[row.original_tag.toLowerCase()] = row.better_tag` — for
duplicate lower-cased originals the last row wins. -/
def synLookup (rows : List (String × String)) (key : String) : Option String :=
  ((rows.filter (fun r => sToLower r.1 == key)).getLast?).map (fun r => r.2)

/-! ### The tag reuse resolver (`tag-utils.js`) -/

/-- Per-element normalization inside `originalProcessHashtags`'s `try`
block (lines 16-26): strings are trimmed and `#`-prefixed; objects with
a truthy `name` use `name.trim()` — which throws when `name` is truthy
but not a string (`.error`); everything else is `'#' + String(tag).trim()`. -/
def normalizeTagE : JVal → Except Unit String
  | .str s => .ok (ensureHash (strim s))
  | .obj fields =>
    match olookup fields "name" with
    | some (.str s) =>
      if s.isEmpty then .ok ("#" ++ strim (jsToStr (.obj fields)))
      else .ok (ensureHash (strim s))
    | some v =>
      if jtruthy v then .error ()
      else .ok ("#" ++ strim (jsToStr (.obj fields)))
    | none => .ok ("#" ++ strim (jsToStr (.obj fields)))
  | v => .ok ("#" ++ strim (jsToStr v))

/-- Normalize a whole candidate array; an exception in any element
aborts the `try` block. -/
def normalizeAllE : List JVal → Except Unit (List String)
  | [] => .ok []
  | v :: rest => do
    let t ← normalizeTagE v
    let ts ← normalizeAllE rest
    return t :: ts

/-- The `catch` branch of `originalProcessHashtags` (lines 86-91):
re-normalize without touching the database — strings trimmed and
`#`-prefixed, everything else `'#' + String(tag).trim()` — then drop
one-character results. -/
def catchNormalize (hashtags : List JVal) : List String :=
  (hashtags.map (fun tag =>
    match tag with
    | .str s => ensureHash (strim s)
    | v => "#" ++ strim (jsToStr v))).filter (fun t => t.length > 1)

/-- The body of the `for (const tag of normalizedTags)` loop
(lines 47-74), with `seen` the lower-cased tags already pushed:
skip blocked tags, substitute a synonym's `better_tag` once, re-prefix
`#`, and de-duplicate case-insensitively. -/
def tagLoop (blockedTags : List String) (syns : List (String × String))
    (seen : List String) : List String → List String
  | [] => []
  | tag :: rest =>
    let cleanTag := sToLower (strim (dropOneHash tag))
    if blockedTags.contains cleanTag then
      tagLoop blockedTags syns seen rest
    else
      let bestTag := (synLookup syns cleanTag).getD cleanTag
      let formattedTag := "#" ++ bestTag
      if seen.contains (sToLower formattedTag) then
        tagLoop blockedTags syns seen rest
      else
        formattedTag :: tagLoop blockedTags syns (sToLower formattedTag :: seen) rest

/-- `originalProcessHashtags` (`tag-utils.js` lines 8-93).  With the
store reachable: normalize, drop one-character tags, filter blocked
tags, substitute synonyms, de-duplicate, and fall back to
`#conversation` when everything was filtered out.  A normalization
exception or an unreachable store lands in the `catch` branch. -/
def originalProcessHashtags (db : DBState) (hashtags : List JVal) : List String :=
  if hashtags.isEmpty then []
  else
    match db with
    | .down => catchNormalize hashtags
    | .ok blockedRows synonymRows =>
      match normalizeAllE hashtags with
      | .error _ => catchNormalize hashtags
      | .ok nt =>
        let normalizedTags := nt.filter (fun t => t.length > 1)
        let blockedTags := blockedRows.map sToLower
        let processedTags := tagLoop blockedTags synonymRows [] normalizedTags
        if processedTags.isEmpty && !normalizedTags.isEmpty then ["#conversation"]
        else processedTags

/-- The exported `processHashtags` wrapper (`tag-utils.js` lines
98-124): falsy input returns `[]`; a string is wrapped in a singleton
array; a non-array object contributes its truthy property values; any
other non-array becomes `[]`. -/
def processHashtags (db : DBState) (hashtags : JVal) : List String :=
  if !jtruthy hashtags then []
  else
    match hashtags with
    | .arr l => originalProcessHashtags db l
    | .str s => originalProcessHashtags db [.str s]
    | .obj fields => originalProcessHashtags db ((fields.map (fun p => p.2)).filter jtruthy)
    | _ => originalProcessHashtags db []

/-- `processHashtags` on a plain array of candidate strings, the shape
every in-repository caller passes. -/
def processStrings (db : DBState) (tags : List String) : List String :=
  originalProcessHashtags db (tags.map JVal.str)

/-! ### Keyword mining (`hashtag-service.js` `extractKeywords`) -/

/-- Fuelled worker for `text.split(/\s+/)` — each step consumes at
least one character, so fuel of the input length plus one never runs
out; the recursion is structural on the fuel so the kernel can
evaluate it. -/
def splitWsGo (fuel : Nat) (racc : List Char) (l : List Char) : List (List Char) :=
  match fuel, l with
  | _, [] => [racc.reverse]
  | 0, _ => [racc.reverse]
  | fuel + 1, c :: rest =>
    if jsWs c then racc.reverse :: splitWsGo fuel [] (rest.dropWhile jsWs)
    else splitWsGo fuel (c :: racc) rest

/-- `text.split(/\s+/)`: split at maximal whitespace runs (a leading
run yields a leading empty token, as in JavaScript). -/
def splitWs (l : List Char) : List (List Char) :=
  splitWsGo (l.length + 1) [] l

/-- Stable insertion preserving earlier elements on equal counts. -/
def insertByCountDesc (count : String → Nat) (x : String) : List String → List String
  | [] => [x]
  | y :: ys =>
    if count x ≤ count y then y :: insertByCountDesc count x ys
    else x :: y :: ys

/-- `Array.prototype.sort((a, b) => wordCount[b] - wordCount[a])`:
stable descending sort by count. -/
def sortByCountDesc (count : String → Nat) (l : List String) : List String :=
  l.foldl (fun acc x => insertByCountDesc count x acc) []

/-- `extractKeywords` (`hashtag-service.js` lines 230-248): lower-case,
replace every non-`\w`, non-`\s` character by a space, split on
whitespace, keep words of 3+ characters, drop excluded words, and sort
by frequency (descending, stable).  `Object.keys` insertion order is
first occurrence; integer-like keys, which JavaScript would move to the
front, are all removed by `shouldExcludeWord`'s purely-numeric rule
before the order matters. -/
def extractKeywords (text : String) : List String :=
  let chars := (sToLower text).data.map (fun c => if jsWordChar c || jsWs c then c else ' ')
  let words := ((splitWs chars).map String.mk).filter (fun w => w.length ≥ 3)
  let keys := dedupFirst [] words
  let filteredWords := keys.filter (fun w => !shouldExcludeWord w)
  sortByCountDesc (fun w => words.count w) filteredWords

/-! ### Blocked-tag filtering and final formatting (`hashtag-service.js`) -/

/-- `filterBlockedTags` (lines 277-316): with the store down the
`catch` returns the input unchanged; with no blocked rows the input is
returned unchanged; otherwise drop tags whose
`replace(/^#/,'').toLowerCase().trim()` form is empty or blocked. -/
def filterBlockedTags (db : DBState) (tags : List String) : List String :=
  if tags.isEmpty then []
  else
    match db with
    | .down => tags
    | .ok blockedRows _ =>
      if blockedRows.isEmpty then tags
      else
        let blockedTagSet := blockedRows.map sToLower
        tags.filter (fun tag =>
          if tag.isEmpty then false
          else
            let tagName := strim (sToLower (dropOneHash tag))
            !tagName.isEmpty && !blockedTagSet.contains tagName)

/-- The per-tag step of `formatHashtags` (lines 324-341) on a string
tag: trim, strip every leading `#` (`replace(/^#+/, '')`), and
re-prefix one `#`; an empty remainder becomes the empty string. -/
def formatTag (s : String) : String :=
  let cleanTag := (trimL s.data).dropWhile (fun c => c == '#')
  if cleanTag.isEmpty then "" else ⟨'#' :: cleanTag⟩

/-- `formatHashtags` on an array of string tags, dropping falsy and
one-character results. -/
def formatHashtags (hashtags : List String) : List String :=
  (hashtags.map formatTag).filter (fun t => !t.isEmpty && t.length > 1)

/-! ### The hashtag-section regex (`extractHashtagsFromResponse`)

`/#\s*HASHTAGS\s*:([^]*?)(?=\n\n|\n$|$)/i` — a leftmost match of the
marker head, then a lazy body stopped at the earliest blank line,
final newline, or end of input. -/

/-- Case-insensitive literal match: strip `pat` from the front of `l`. -/
def stripCI : List Char → List Char → Option (List Char)
  | [], l => some l
  | _ :: _, [] => none
  | p :: ps, c :: cs => if c.toLower = p then stripCI ps cs else none

/-- Match `#\s*HASHTAGS\s*:` at the head of `l`, returning the rest. -/
def markerHead (l : List Char) : Option (List Char) :=
  match l with
  | '#' :: rest =>
    match stripCI "hashtags".data (rest.dropWhile jsWs) with
    | some r2 =>
      match r2.dropWhile jsWs with
      | ':' :: r4 => some r4
      | _ => none
    | none => none
  | _ => none

/-- The lazy `([^]*?)(?=\n\n|\n$|$)` body: the shortest prefix whose
remainder starts a blank line (`\n\n`), is a final newline, or is
empty. -/
def innerSplit : List Char → (List Char × List Char)
  | [] => ([], [])
  | c :: rest =>
    if c = '\n' && (rest.isEmpty || rest.head? = some '\n') then ([], c :: rest)
    else
      let r := innerSplit rest
      (c :: r.1, r.2)

/-- Leftmost match of the hashtag-section regex: the text before the
match (reversed accumulator `pre`), the captured group, and the text
after the match. -/
def findMarkerGo (pre : List Char) : List Char → Option (List Char × List Char × List Char)
  | [] => none
  | c :: rest =>
    match markerHead (c :: rest) with
    | some r =>
      let p := innerSplit r
      some (pre.reverse, p.1, p.2)
    | none => findMarkerGo (c :: pre) rest

/-- Leftmost match of `/#\s*HASHTAGS\s*:([^]*?)(?=\n\n|\n$|$)/i`. -/
def findMarker (l : List Char) : Option (List Char × List Char × List Char) :=
  findMarkerGo [] l

/-- Fuelled worker for `split(/,\s*|\s+/)`: a comma separator absorbs
trailing whitespace, a whitespace separator absorbs its whole run.
Each step consumes at least one character, so fuel of the input length
plus one never runs out. -/
def splitTokensGo (fuel : Nat) (racc : List Char) (l : List Char) : List (List Char) :=
  match fuel, l with
  | _, [] => [racc.reverse]
  | 0, _ => [racc.reverse]
  | fuel + 1, c :: rest =>
    if c = ',' || jsWs c then racc.reverse :: splitTokensGo fuel [] (rest.dropWhile jsWs)
    else splitTokensGo fuel (c :: racc) rest

/-- `hashtagSection.split(/,\s*|\s+/)`: split at each comma (with its
trailing whitespace) or whitespace run. -/
def splitTokens (l : List Char) : List (List Char) :=
  splitTokensGo (l.length + 1) [] l

/-- Fuelled worker for the global inline scan — each step consumes at
least one character, so fuel of the input length plus one never runs
out. -/
def inlineScanGo (fuel : Nat) (l : List Char) : List (List Char) :=
  match fuel, l with
  | _, [] => []
  | 0, _ => []
  | fuel + 1, '#' :: rest =>
    let run := rest.takeWhile tagChar
    if run.isEmpty then inlineScanGo fuel rest
    else ('#' :: run) :: inlineScanGo fuel (rest.drop run.length)
  | fuel + 1, _ :: rest => inlineScanGo fuel rest

/-- `/#([a-zA-Z0-9_-]+)/g`: every non-overlapping inline hashtag match
in order. -/
def inlineScan (l : List Char) : List (List Char) :=
  inlineScanGo (l.length + 1) l

/-- `extractHashtagsFromResponse` (`hashtag-service.js` lines 439-470):
with a labeled `#HASHTAGS:` section, split it on commas/whitespace,
trim each token, keep the non-empty ones, prefix `#` where missing, and
return the content with the matched section removed and trimmed;
without a section, collect inline `#word` tokens (de-duplicated) and
return the content unchanged. -/
def extractHashtagsFromResponse (response : String) : String × List String :=
  match findMarker response.data with
  | some (pre, inner, post) =>
    let hashtagSection := trimL inner
    let hashtagList := splitTokens hashtagSection
    let hashtags :=
      ((hashtagList.map trimL).filter (fun t => !t.isEmpty)).map
        (fun t => (⟨ensureHashL t⟩ : String))
    (⟨trimL (pre ++ post)⟩, hashtags)
  | none =>
    let ms := (inlineScan response.data).map (fun t => (⟨t⟩ : String))
    (response, dedupFirst [] ms)

/-- `extractHashtags` (`hashtag-service.js` lines 349-406).  `exc`
models the `catch` path (lines 398-405), taken only when the `try` body
itself throws; the mainline extracts or mines candidates, filters them
through `shouldExcludeWord`, the blocked-tag table, and
`processHashtags`, and formats the result. -/
def extractHashtags (db : DBState) (exc : Bool) (response : String) (maxTags : Nat) :
    String × List String :=
  if exc then (response, ["#response", "#ai"])
  else if (strim response).isEmpty then ("", [])
  else
    let result := extractHashtagsFromResponse response
    let tags0 :=
      if result.2.isEmpty then
        let keywords := extractKeywords response
        let filteredKeywords := keywords.filter (fun keyword => !shouldExcludeWord keyword)
        (filteredKeywords.take maxTags).map (fun kw => "#" ++ kw)
      else
        result.2.filter (fun tag =>
          let cleanTag := strim (dropOneHash tag)
          !cleanTag.isEmpty && !shouldExcludeWord cleanTag)
    let nonBlockedTags := filterBlockedTags db tags0
    let processedTags := processStrings db nonBlockedTags
    (result.1, formatHashtags processedTags)

/-! ### `JSON.parse` for stream segments

An executable recursive-descent parser for the JSON the
newline-delimited generation stream carries.  Parsing is fuelled (the
fuel is the input length plus one; every recursive call consumes at
least one character, so the fuel never runs out on real input).
Numbers become `JVal.num mantissa exp10`.  `parseJsonLine` demands
that nothing but whitespace follows the value, as `JSON.parse` does. -/

/-- JSON insignificant whitespace. -/
def jsonWs (c : Char) : Bool :=
  c = ' ' || c = '\t' || c = '\n' || c = '\r'

/-- Parse the body of a string literal after the opening quote,
handling the escapes `\" \\ \/ \b \f \n \r \t` and rejecting raw
control characters and `\u` (unsupported in this subset). -/
def parseStringBody (racc : List Char) : List Char → Option (String × List Char)
  | [] => none
  | '"' :: rest => some (⟨racc.reverse⟩, rest)
  | '\\' :: c :: rest =>
    match c with
    | '"' => parseStringBody ('"' :: racc) rest
    | '\\' => parseStringBody ('\\' :: racc) rest
    | '/' => parseStringBody ('/' :: racc) rest
    | 'b' => parseStringBody ('\x08' :: racc) rest
    | 'f' => parseStringBody ('\x0c' :: racc) rest
    | 'n' => parseStringBody ('\n' :: racc) rest
    | 'r' => parseStringBody ('\r' :: racc) rest
    | 't' => parseStringBody ('\t' :: racc) rest
    | _ => none
  | c :: rest =>
    if c.toNat < 32 then none else parseStringBody (c :: racc) rest

/-- Digit run as a natural number with its length. -/
def parseDigitsNat (acc : Nat) (len : Nat) : List Char → (Nat × Nat × List Char)
  | c :: rest =>
    if c.isDigit then parseDigitsNat (acc * 10 + (c.toNat - '0'.toNat)) (len + 1) rest
    else (acc, len, c :: rest)
  | [] => (acc, len, [])

/-- Parse a JSON number (after an optional leading `-`, already
consumed by the caller): integer part without leading zeros, optional
fraction, optional exponent; the value is `mantissa * 10 ^ exp10`. -/
def parseNumberTail (neg : Bool) (l : List Char) : Option (JVal × List Char) :=
  match parseDigitsNat 0 0 l with
  | (_, 0, _) => none
  | (ip, ipLen, rest0) =>
    if ipLen > 1 && l.head? = some '0' then none
    else
      let fr :=
        match rest0 with
        | '.' :: r1 =>
          match parseDigitsNat 0 0 r1 with
          | (_, 0, _) => none
          | (fp, fpLen, r2) => some (ip * 10 ^ fpLen + fp, (fpLen : Int), r2)
        | _ => some (ip, (0 : Int), rest0)
      match fr with
      | none => none
      | some (mant, fracLen, rest1) =>
        let ex :=
          match rest1 with
          | 'e' :: r1 => some r1
          | 'E' :: r1 => some r1
          | _ => none
        match ex with
        | none =>
          let m : Int := if neg then -(mant : Int) else (mant : Int)
          some (.num m (-fracLen), rest1)
        | some r1 =>
          let (esign, r2) :=
            match r1 with
            | '+' :: r => ((1 : Int), r)
            | '-' :: r => ((-1 : Int), r)
            | r => ((1 : Int), r)
          match parseDigitsNat 0 0 r2 with
          | (_, 0, _) => none
          | (ev, _, r3) =>
            let m : Int := if neg then -(mant : Int) else (mant : Int)
            some (.num m (esign * ev - fracLen), r3)

mutual

/-- Parse one JSON value. -/
def parseVal : Nat → List Char → Option (JVal × List Char)
  | 0, _ => none
  | fuel + 1, l =>
    match l.dropWhile jsonWs with
    | '{' :: rest =>
      match (rest.dropWhile jsonWs) with
      | '}' :: r => some (.obj [], r)
      | r => parseMembers fuel r []
    | '[' :: rest =>
      match (rest.dropWhile jsonWs) with
      | ']' :: r => some (.arr [], r)
      | r => parseElems fuel r []
    | '"' :: rest => (parseStringBody [] rest).map (fun p => (.str p.1, p.2))
    | 't' :: 'r' :: 'u' :: 'e' :: rest => some (.bool true, rest)
    | 'f' :: 'a' :: 'l' :: 's' :: 'e' :: rest => some (.bool false, rest)
    | 'n' :: 'u' :: 'l' :: 'l' :: rest => some (.null, rest)
    | '-' :: rest => parseNumberTail true rest
    | c :: rest =>
      if c.isDigit then parseNumberTail false (c :: rest) else none
    | [] => none

/-- Parse `"key": value` members of an object, comma separated,
terminated by `}` (a comma must be followed by another member). -/
def parseMembers (fuel : Nat) (l : List Char) (acc : List (String × JVal)) :
    Option (JVal × List Char) :=
  match fuel with
  | 0 => none
  | fuel + 1 =>
    match l with
    | '"' :: rest =>
      match parseStringBody [] rest with
      | none => none
      | some (k, r1) =>
        match r1.dropWhile jsonWs with
        | ':' :: r2 =>
          match parseVal fuel r2 with
          | none => none
          | some (v, r3) =>
            match r3.dropWhile jsonWs with
            | ',' :: r4 => parseMembers fuel (r4.dropWhile jsonWs) ((k, v) :: acc)
            | '}' :: r4 => some (.obj ((k, v) :: acc).reverse, r4)
            | _ => none
        | _ => none
    | _ => none

/-- Parse array elements, comma separated, terminated by `]`. -/
def parseElems (fuel : Nat) (l : List Char) (acc : List JVal) :
    Option (JVal × List Char) :=
  match fuel with
  | 0 => none
  | fuel + 1 =>
    match parseVal fuel l with
    | none => none
    | some (v, r1) =>
      match r1.dropWhile jsonWs with
      | ',' :: r2 => parseElems fuel (r2.dropWhile jsonWs) (v :: acc)
      | ']' :: r2 => some (.arr (v :: acc).reverse, r2)
      | _ => none

end

/-- `JSON.parse(jsonStr)` on a whole segment: one value and nothing but
whitespace after it. -/
def parseJsonLine (l : List Char) : Option JVal :=
  match parseVal (l.length + 1) l with
  | some (v, rest) => if (rest.dropWhile jsonWs).isEmpty then some v else none
  | none => none

/-! ### The streaming response assembler (`part_007` lines 361-458)

The `response.data.on('data')` handler keeps `fullResponse`,
`chunkCount`, `contentExtracted` and a string `buffer` across arrivals.
Each arrival appends the chunk to the buffer, walks the buffer cutting
a segment at every newline, trims and `JSON.parse`s each segment
(discarding the ones that fail), forwards every truthy `data.response`
as a `messageChunk {done:false}` and reacts to a truthy `data.done` by
running `processCompletedResponse`, which emits the single
`messageChunk {done:true}` carrying the final extracted hashtags.  The
text after the last newline stays in the buffer.

One JavaScript subtlety: when a segment parses to the JSON literal
`null`, the property read `data.response` throws a `TypeError` — but
the per-segment `try` (line 387) wraps the property accesses too, and
its untyped `catch (parseError)` at line 439 catches that `TypeError`
as well, logs it, and the scan continues; such a segment is therefore
skipped exactly like a malformed one, and the buffer update at lines
448-453 always runs.  Nothing else inside the per-segment `try` can
throw synchronously (the early extraction is fire-and-forget and
`processCompletedResponse` is an un-awaited `async` call), so the
chunk-level `catch` at line 455 is unreachable for the modelled
effects.

`processCompletedResponse` (lines 490-544) is modelled by its one
client-visible effect, the terminal `messageChunk {done:true}` whose
hashtags come from `extractHashtags` over the accumulated text (the
database writes it also performs are outside the claims considered
here; its `catch` branch emits the same single terminal event). -/

/-- The mutable locals of the stream handler other than the buffer. -/
structure Core : Type where
  fullResponse : String
  chunkCount : Nat
  contentExtracted : Bool
deriving DecidableEq, Repr

/-- Client-visible events emitted while streaming: a `messageChunk`
with `done:false` carrying a fragment, the fire-and-forget early
hashtag extraction request (whose `streamingHashtags` reply is
asynchronous), and the terminal `messageChunk` with `done:true`. -/
inductive SEvent : Type where
  | fragment : String → SEvent
  | previewFire : SEvent
  | terminal : List String → SEvent
deriving DecidableEq, Repr

/-- Property access `data.f` on a parsed JSON value: a field of an
object (`JSON.parse` keeps the last duplicate), `undefined` (`none`)
on every other non-null value.  `data = null` never reaches this
function: the per-segment `catch` swallows the `TypeError` it would
throw, so the handler skips such a segment. -/
def jgetProp (v : JVal) (f : String) : Option JVal :=
  match v with
  | .obj fields => olookup fields f
  | _ => none

/-- Truthiness of a possibly-undefined property. -/
def jtruthyOpt : Option JVal → Bool
  | none => false
  | some v => jtruthy v

/-- The `if (data.response) { ... }` block (lines 392-428): append the
fragment, bump `chunkCount`, emit the `messageChunk`, and possibly fire
the early hashtag extraction. -/
def handleResponse (c : Core) (data : JVal) : Core × List SEvent :=
  match jgetProp data "response" with
  | some v =>
    if jtruthy v then
      let s := jsToStr v
      let c' : Core :=
        { fullResponse := c.fullResponse ++ s
          chunkCount := c.chunkCount + 1
          contentExtracted := c.contentExtracted }
      let evs :=
        if !c'.contentExtracted && c'.fullResponse.length > 200 && c'.chunkCount % 10 = 0 then
          [SEvent.fragment s, SEvent.previewFire]
        else
          [SEvent.fragment s]
      (c', evs)
    else (c, [])
  | none => (c, [])

/-- The one client-visible effect of `processCompletedResponse`: the
single terminal `messageChunk {done:true}` with the hashtags
`extractHashtags` derives from the accumulated text. -/
def processCompletedResponse (db : DBState) (fullResponse : String) : List SEvent :=
  [SEvent.terminal (extractHashtags db false fullResponse 5).2]

/-- Process the complete newline-terminated segments of one arrival, in
order, returning the updated locals and the emitted events.  An empty
trimmed segment is skipped (`if (!jsonStr) continue`); a segment that
fails to parse is skipped by the per-segment `catch`; a segment that
parses to JSON `null` is also skipped by that same `catch` (it catches
the `TypeError` thrown by `data.response` before any effect occurs). -/
def runSegs (db : DBState) (c : Core) (evs : List SEvent) :
    List (List Char) → Core × List SEvent
  | [] => (c, evs)
  | seg :: rest =>
    let jsonStr := trimL seg
    if jsonStr.isEmpty then runSegs db c evs rest
    else
      match parseJsonLine jsonStr with
      | none => runSegs db c evs rest
      | some .null => runSegs db c evs rest
      | some data =>
        let r := handleResponse c data
        if jtruthyOpt (jgetProp data "done") then
          runSegs db r.1 (evs ++ r.2 ++ processCompletedResponse db r.1.fullResponse) rest
        else
          runSegs db r.1 (evs ++ r.2) rest

/-- Cut the buffer at each newline: the source's index scan is
equivalent to collecting the text between consecutive newlines as
segments and keeping the text after the last newline (`racc` holds the
reversed current segment). -/
def splitGo (racc : List Char) : List Char → List (List Char) × List Char
  | [] => ([], racc.reverse)
  | c :: rest =>
    if c = '\n' then
      let r := splitGo [] rest
      (racc.reverse :: r.1, r.2)
    else splitGo (c :: racc) rest

/-- Complete segments and retained remainder of a buffer. -/
def splitSegs (l : List Char) : List (List Char) × List Char :=
  splitGo [] l

/-- The assembler state across arrivals: the handler locals plus the
parse buffer. -/
structure SState : Type where
  core : Core
  buffer : List Char
deriving DecidableEq, Repr

/-- One `data` arrival (lines 368-458): append the chunk, process the
complete segments, and keep exactly the text after the last newline in
the buffer (lines 448-453, which always run — every per-segment
failure is contained by the `catch` at line 439). -/
def onData (db : DBState) (st : SState) (chunk : String) :
    SState × List SEvent :=
  let buf := st.buffer ++ chunk.data
  let p := splitSegs buf
  let r := runSegs db st.core [] p.1
  ({ core := r.1, buffer := p.2 }, r.2)

/-- The fresh per-generation state (lines 361-365). -/
def initialSState : SState :=
  { core := { fullResponse := "", chunkCount := 0, contentExtracted := false }
    buffer := [] }

/-- Accumulated result of a run: final state and all events in
emission order. -/
structure RunAcc : Type where
  st : SState
  evs : List SEvent
deriving DecidableEq, Repr

/-- One arrival folded into the accumulated run. -/
def runStep (db : DBState) (acc : RunAcc) (ch : String) : RunAcc :=
  let r := onData db acc.st ch
  { st := r.1, evs := acc.evs ++ r.2 }

/-- Feed a sequence of raw chunks to the assembler from the fresh
state. -/
def runChunks (db : DBState) (chunks : List String) : RunAcc :=
  chunks.foldl (runStep db) { st := initialSState, evs := [] }

/-- The text after the last newline of `l` (all of `l` when it has no
newline). -/
def afterLastNL (l : List Char) : List Char :=
  (l.reverse.takeWhile (fun c => !(c = '\n'))).reverse

/-- Fragment payloads of an event list, in order. -/
def fragmentsOf (evs : List SEvent) : List String :=
  evs.filterMap (fun e => match e with | .fragment s => some s | _ => none)

/-- Whether `e` is the terminal notification. -/
def isTerminal : SEvent → Bool
  | .terminal _ => true
  | _ => false

/-- Whether some fragment is emitted after a terminal notification. -/
def fragmentAfterTerminal : List SEvent → Bool
  | [] => false
  | e :: rest =>
    if isTerminal e then rest.any (fun x => x matches .fragment _)
    else fragmentAfterTerminal rest

/-- The spec's three-chunk scenario run against the assembler with an
empty, reachable store. -/
def threeChunkRun : RunAcc :=
  runChunks (.ok [] [])
    ["\x7b\x22response\x22:\x22Hel\x22\x7d\n",
     "\x7b\x22response\x22:\x22lo\x22\x7d\n",
     "\x7b\x22done\x22:true\x7d\n"]

/-! ### A claim-side definition for C3

The claim describes the labeled-section extraction as keeping only the
tokens that start with `#` and truncating each kept token at its first
non-alphanumeric character after the `#`.  This definition follows the
claim's words, for comparison against `extractHashtagsFromResponse`. -/

/-- Tags of the labeled `#HASHTAGS:` section as the claim describes
them: split on whitespace/commas, keep only `#`-initial tokens,
truncate each at its first non-alphanumeric character after the `#`
(`none` when no labeled section is present). -/
def claimedSectionTags (response : String) : Option (List String) :=
  match findMarker response.data with
  | none => none
  | some (_, inner, _) =>
    some (((splitTokens (trimL inner)).filter
        (fun t => t.head? = some '#')).map
      (fun t => (⟨'#' :: (t.drop 1).takeWhile Char.isAlphanum⟩ : String)))

/-! ## Supporting lemmas -/

theorem jsWs_hash : jsWs '#' = false := by decide

/-- The head of a `dropWhile` result never satisfies the predicate. -/
theorem dropWhile_head?_not {p : Char → Bool} {l : List Char} {x : Char}
    (h : (l.dropWhile p).head? = some x) : p x = false := by
  have h2 := List.head?_dropWhile_not p l
  rw [h] at h2
  exact h2

/-- `trimL` never ends in whitespace. -/
theorem trimL_last_not_ws {l : List Char} {x : Char}
    (h : ((trimL l).reverse).head? = some x) : jsWs x = false := by
  have hrw : (trimL l).reverse = (l.dropWhile jsWs).reverse.dropWhile jsWs := by
    simp [trimL, dropTrailWhile]
  rw [hrw] at h
  exact dropWhile_head?_not h

/-- A non-whitespace, non-`#` head keeps a list fixed under `trimL`
followed by leading-`#` stripping, once its last character is known not
to be whitespace.  Specialized shape used by the idempotence proof. -/
theorem trimL_cons_hash_fixed {c : List Char} (hc : c ≠ [])
    (hlast : ∀ x, (c.reverse).head? = some x → jsWs x = false) :
    trimL ('#' :: c) = '#' :: c := by
  have h1 : ('#' :: c).dropWhile jsWs = '#' :: c :=
    List.dropWhile_cons_of_neg (by simp [jsWs_hash])
  have hrev : ('#' :: c).reverse = c.reverse ++ ['#'] := by simp
  obtain ⟨z, w, hz⟩ : ∃ z w, c.reverse = z :: w := by
    cases hcr : c.reverse with
    | nil => exact absurd (by simpa using congrArg List.reverse hcr) hc
    | cons z w => exact ⟨z, w, rfl⟩
  have hzw : jsWs z = false := hlast z (by rw [hz]; rfl)
  have h2 : (c.reverse ++ ['#']).dropWhile jsWs = c.reverse ++ ['#'] := by
    rw [hz, List.cons_append]
    exact List.dropWhile_cons_of_neg (by simp [hzw])
  unfold trimL dropTrailWhile
  rw [h1, hrev, h2, List.reverse_append]
  simp

/-! ## Claim C7 -/

/-- C7 — the tag normalizer (the per-tag step of `formatHashtags`:
trim, strip all leading `#`, reject empty, re-prefix one `#`) is
idempotent on every input string, and `normalize("##Foo ")` equals
`normalize("foo")` case-insensitively once the `#` prefix is removed. -/
theorem c7_normalize_idempotent :
    (∀ s : String, formatTag (formatTag s) = formatTag s) ∧
    sToLower (dropOneHash (formatTag "##Foo ")) = sToLower (dropOneHash (formatTag "foo")) := by
  refine ⟨fun s => ?_, by decide⟩
  cases hcl : (trimL s.data).dropWhile (fun c => c == '#') with
  | nil =>
    have h1 : formatTag s = "" := by simp [formatTag, hcl]
    rw [h1]
    rfl
  | cons y ys =>
    have h1 : formatTag s = ⟨'#' :: y :: ys⟩ := by simp [formatTag, hcl]
    rw [h1]
    have hlast : ∀ x, ((y :: ys).reverse).head? = some x → jsWs x = false := by
      intro x hx
      obtain ⟨t, ht⟩ := List.dropWhile_suffix (l := trimL s.data) (fun c => c == '#')
      rw [hcl] at ht
      apply trimL_last_not_ws (l := s.data)
      rw [← ht, List.reverse_append, List.head?_append, hx]
      rfl
    have htrim := trimL_cons_hash_fixed (c := y :: ys) (by simp) hlast
    have hyns : (y == '#') = false :=
      dropWhile_head?_not (p := fun c => c == '#') (l := trimL s.data) (by rw [hcl]; rfl)
    show formatTag ⟨'#' :: y :: ys⟩ = ⟨'#' :: y :: ys⟩
    unfold formatTag
    rw [show (⟨'#' :: y :: ys⟩ : String).data = '#' :: y :: ys from rfl, htrim,
      List.dropWhile_cons_of_pos (by simp), List.dropWhile_cons_of_neg (by simp [hyns])]
    simp

/-! ## Claim C1 -/

/-- C1 — feeding the assembler the three raw chunks
`'{"response":"Hel"}\n'`, `'{"response":"lo"}\n'`, `'{"done":true}\n'`
forwards exactly the fragments `"Hel"` then `"lo"` in that order, emits
exactly one terminal notification, emits no fragment after the
terminal notification, and accumulates `"Hello"` at finalization. -/
theorem c1_streaming_three_chunk_run :
    fragmentsOf threeChunkRun.evs = ["Hel", "lo"] ∧
      threeChunkRun.evs.countP isTerminal = 1 ∧
      fragmentAfterTerminal threeChunkRun.evs = false ∧
      threeChunkRun.st.core.fullResponse = "Hello" := by
  decide

/-! ## Claim C2

The claim asserts that no tag shorter than 3 characters, purely
numeric, or on the stopword list can ever reach storage, because every
tag-producing path of `generateUserMessageHashtags` and
`extractHashtags` applies `shouldExcludeWord` before returning.  The
code violates this: `extractHashtags` checks `shouldExcludeWord` on the
candidate with only *one* leading `#` stripped
(`tag.replace(/^#/, '')`), while `formatHashtags` later strips *all*
leading `#` characters, so the response `"#HASHTAGS: ##ai"` flows
through every filter yet returns the stored tag `"#ai"` — and `"ai"`
(length 2) is exactly a word `shouldExcludeWord` rejects.  (The `catch`
fallback of `extractHashtags`, lines 398-405, likewise returns the
fixed list `['#response','#ai']` with no filtering.) -/

/-- C2 — evaluating the code at the failing input: with the store
reachable and no blocked tags or synonyms, `extractHashtags` on
`"#HASHTAGS: ##ai"` returns the tag list `["#ai"]` even though
`shouldExcludeWord "ai"` is `true`, contradicting the claimed
invariant. -/
theorem c2_short_tag_reaches_storage :
    extractHashtags (.ok [] []) false "#HASHTAGS: ##ai" 5 = ("", ["#ai"]) ∧
      shouldExcludeWord "ai" = true := by
  decide

/-! ## Supporting lemmas about the marker match -/

/-- A successful case-insensitive literal match consumes a prefix. -/
theorem stripCI_append : ∀ {pat l r : List Char}, stripCI pat l = some r →
    ∃ h, l = h ++ r := by
  intro pat
  induction pat with
  | nil =>
    intro l r hm
    cases hm
    exact ⟨[], rfl⟩
  | cons p ps ih =>
    intro l r hm
    cases l with
    | nil => exact Option.noConfusion hm
    | cons c cs =>
      simp only [stripCI] at hm
      split_ifs at hm with hc
      obtain ⟨h, hh⟩ := ih hm
      exact ⟨c :: h, by rw [List.cons_append, hh]⟩

/-- A successful marker-head match consumes a prefix of the text. -/
theorem markerHead_decomp : ∀ {l r : List Char}, markerHead l = some r →
    ∃ h, l = h ++ r := by
  intro l r hm
  unfold markerHead at hm
  split at hm
  · rename_i rest
    split at hm
    · rename_i r2 hs
      split at hm
      · rename_i r4 hd
        cases hm
        obtain ⟨h2, hh2⟩ := stripCI_append hs
        refine ⟨'#' :: (rest.takeWhile jsWs ++ (h2 ++ (r2.takeWhile jsWs ++ [':']))), ?_⟩
        have hrest : rest = rest.takeWhile jsWs ++ (h2 ++ r2) := by
          conv_lhs => rw [← List.takeWhile_append_dropWhile (p := jsWs) (l := rest)]
          rw [hh2]
        have hr2 : r2 = r2.takeWhile jsWs ++ (':' :: r) := by
          conv_lhs => rw [← List.takeWhile_append_dropWhile (p := jsWs) (l := r2)]
          rw [hd]
        rw [List.cons_append]
        congr 1
        conv_lhs => rw [hrest, hr2]
        simp
      · exact Option.noConfusion hm
    · exact Option.noConfusion hm
  · exact Option.noConfusion hm

/-- The lazy body and the lookahead remainder partition the text after
the marker head. -/
theorem innerSplit_append : ∀ l : List Char, (innerSplit l).1 ++ (innerSplit l).2 = l := by
  intro l
  induction l with
  | nil => rfl
  | cons c rest ih =>
    simp only [innerSplit]
    split
    · simp
    · simpa using ih

/-- A successful leftmost marker match decomposes the input: the text
before the match, the consumed marker head, the captured section, and
the text after the match. -/
theorem findMarkerGo_decomp : ∀ {l preAcc p inner post : List Char},
    findMarkerGo preAcc l = some (p, inner, post) →
    ∃ mark, preAcc.reverse ++ l = p ++ (mark ++ inner) ++ post := by
  intro l
  induction l with
  | nil =>
    intro preAcc p inner post hm
    exact Option.noConfusion hm
  | cons c rest ih =>
    intro preAcc p inner post hm
    simp only [findMarkerGo] at hm
    cases hmk : markerHead (c :: rest) with
    | some r =>
      rw [hmk] at hm
      simp only [Option.some.injEq, Prod.mk.injEq] at hm
      obtain ⟨hp, hi, hpo⟩ := hm
      subst hp
      subst hi
      subst hpo
      obtain ⟨mk, hmk2⟩ := markerHead_decomp hmk
      refine ⟨mk, ?_⟩
      rw [hmk2]
      conv_lhs => rw [← innerSplit_append r]
      simp
    | none =>
      rw [hmk] at hm
      obtain ⟨mk, h2⟩ := ih hm
      refine ⟨mk, ?_⟩
      rw [List.reverse_cons] at h2
      simpa [List.append_assoc] using h2

/-! ## Claim C3 -/

/-- C3 counterexample — on `"#HASHTAGS: #foo!bar, baz"` the code keeps
the token `baz` (which does not start with `#`, prefixing it instead of
dropping it) and does not truncate `#foo!bar` at the `!`; the claim's
described extraction (`claimedSectionTags`) would produce `["#foo"]`,
which differs from the code's `["#foo!bar", "#baz"]`. -/
theorem c3_claimed_truncation_counterexample :
    (extractHashtagsFromResponse "#HASHTAGS: #foo!bar, baz").2 = ["#foo!bar", "#baz"] ∧
      claimedSectionTags "#HASHTAGS: #foo!bar, baz" = some ["#foo"] ∧
      (["#foo!bar", "#baz"] : List String) ≠ ["#foo"] := by
  decide

/-- C3 amended — with a labeled `#HASHTAGS:` section the extractor
splits the remainder on whitespace/commas and keeps *every* token that
is non-empty after trimming, prefixing `#` to tokens that lack it and
performing no truncation, and returns the content with the marker
section removed and trimmed: the input decomposes as
`pre ++ (marker head ++ section) ++ post` and the returned content is
`trim (pre ++ post)`.  With no labeled section the returned content
equals the input unchanged (shown both in general and on the spec's
inline example). -/
theorem c3_marker_extraction_amended :
    (∀ s : String, findMarker s.data = none →
      (extractHashtagsFromResponse s).1 = s) ∧
    (∀ (s : String) (pre inner post t : List Char),
      findMarker s.data = some (pre, inner, post) →
      t ∈ splitTokens (trimL inner) →
      (trimL t).isEmpty = false →
      (⟨ensureHashL (trimL t)⟩ : String) ∈ (extractHashtagsFromResponse s).2) ∧
    (∀ (s : String) (pre inner post : List Char),
      findMarker s.data = some (pre, inner, post) →
      (∃ mark, s.data = pre ++ (mark ++ inner) ++ post) ∧
        (extractHashtagsFromResponse s).1 = strim ⟨pre ++ post⟩) ∧
    extractHashtagsFromResponse "Great talk about #Kubernetes and #scaling today" =
      ("Great talk about #Kubernetes and #scaling today", ["#Kubernetes", "#scaling"]) := by
  refine ⟨fun s h => ?_, fun s pre inner post t h ht hne => ?_,
    fun s pre inner post h => ⟨?_, ?_⟩, by decide⟩
  · simp [extractHashtagsFromResponse, h]
  · simp only [extractHashtagsFromResponse, h]
    apply List.mem_map_of_mem
    apply List.mem_filter_of_mem
    · exact List.mem_map_of_mem trimL ht
    · simp [hne]
  · have h2 : findMarkerGo [] s.data = some (pre, inner, post) := h
    obtain ⟨mark, hm⟩ := findMarkerGo_decomp h2
    exact ⟨mark, by simpa using hm⟩
  · simp [extractHashtagsFromResponse, h, strim]

/-- C3 amended, witness — on `"#HASHTAGS: x"` the non-`#` token `x` is
kept as `#x`. -/
theorem c3_marker_extraction_amended_witness :
    ("#x" : String) ∈ (extractHashtagsFromResponse "#HASHTAGS: x").2 :=
  c3_marker_extraction_amended.2.1 "#HASHTAGS: x" [] " x".data [] "x".data
    (by decide) (by decide) (by decide)

/-! ## Supporting lemmas about the tag reuse resolver -/

/-- String candidates never throw during normalization: the `try`
block normalizes them to trimmed, `#`-prefixed strings. -/
theorem normalizeAllE_strings (tags : List String) :
    normalizeAllE (tags.map JVal.str) = .ok (tags.map (fun s => ensureHash (strim s))) := by
  induction tags with
  | nil => rfl
  | cons t rest ih =>
    simp only [List.map_cons, normalizeAllE, normalizeTagE, ih]
    rfl

/-- The `catch` branch on string candidates: trim, `#`-prefix, and drop
one-character results. -/
theorem catchNormalize_strings (tags : List String) :
    catchNormalize (tags.map JVal.str) =
      (tags.map (fun s => ensureHash (strim s))).filter (fun t => t.length > 1) := by
  simp only [catchNormalize, List.map_map]
  rfl

/-- When every candidate's cleaned form is blocked, the loop emits
nothing. -/
theorem tagLoop_all_blocked {blocked : List String} {syns : List (String × String)}
    {seen l : List String}
    (h : ∀ t ∈ l, blocked.contains (sToLower (strim (dropOneHash t))) = true) :
    tagLoop blocked syns seen l = [] := by
  induction l generalizing seen with
  | nil => rfl
  | cons tag rest ih =>
    simp only [tagLoop]
    rw [if_pos (h tag (List.mem_cons_self tag rest))]
    exact ih (fun t ht => h t (List.mem_cons_of_mem tag ht))

/-! ## Claim C4 -/

/-- C5 — over a reachable store the resolver returns the empty list
exactly when the normalized candidate list (trimmed, `#`-prefixed,
one-character tags dropped) is empty; and whenever the normalized list
is non-empty but every candidate's cleaned name is blocked, the
resolver returns exactly the default `["#conversation"]`. -/
theorem c5_fallback_default_tag (blockedRows : List String)
    (syns : List (String × String)) (tags : List String) :
    (processStrings (.ok blockedRows syns) tags = [] ↔
      (tags.map (fun s => ensureHash (strim s))).filter (fun t => t.length > 1) = []) ∧
    ((tags.map (fun s => ensureHash (strim s))).filter (fun t => t.length > 1) ≠ [] →
      (∀ t ∈ (tags.map (fun s => ensureHash (strim s))).filter (fun t => t.length > 1),
        (blockedRows.map sToLower).contains (sToLower (strim (dropOneHash t))) = true) →
      processStrings (.ok blockedRows syns) tags = ["#conversation"]) := by
  unfold processStrings originalProcessHashtags
  by_cases hempty : (tags.map JVal.str).isEmpty
  · rw [if_pos hempty]
    have htags : tags = [] := by
      cases tags with
      | nil => rfl
      | cons a l => simp at hempty
    subst htags
    simp
  · rw [if_neg hempty, normalizeAllE_strings]
    simp only
    constructor
    · constructor
      · intro h
        split_ifs at h with hfb
        rw [h] at hfb
        simpa [List.isEmpty_iff] using hfb
      · intro h
        rw [h]
        simp [tagLoop]
    · intro hne hall
      rw [tagLoop_all_blocked hall]
      simp [List.isEmpty_iff, hne]

/-- C5 witness — a non-empty candidate list entirely blocked collapses
to the default tag. -/
theorem c5_fallback_default_tag_witness :
    processStrings (.ok ["spam"] []) ["#spam", "spam"] = ["#conversation"] :=
  (c5_fallback_default_tag ["spam"] [] ["#spam", "spam"]).2 (by decide) (by decide)

/-! ## Claim C6 -/

/-- C6 — with the store down (every query throws) the resolver does
not fail: it returns each input candidate trimmed and `#`-prefixed
(one-character results dropped), with no blocked-tag filtering, no
synonym substitution, and no de-duplication — duplicates survive, as
the second conjunct shows on a concrete input. -/
theorem c6_db_down_degraded :
    (∀ tags : List String, processStrings .down tags =
      (tags.map (fun s => ensureHash (strim s))).filter (fun t => t.length > 1)) ∧
    processStrings .down ["#dup", "#dup"] = ["#dup", "#dup"] := by
  refine ⟨fun tags => ?_, by decide⟩
  unfold processStrings originalProcessHashtags
  by_cases hempty : (tags.map JVal.str).isEmpty
  · rw [if_pos hempty]
    have htags : tags = [] := by
      cases tags with
      | nil => rfl
      | cons a l => simp at hempty
    subst htags
    rfl
  · rw [if_neg hempty]
    exact catchNormalize_strings tags

/-! ## Claim C10 -/

/-- C10 — the `processHashtags` wrapper is total and always returns an
array: `null`/`undefined` yield `[]`; a string behaves exactly as the
singleton array of that string (including the empty string, which the
falsy guard returns as `[]` and the array path also normalizes away);
an object contributes its truthy property values; booleans and numbers
yield `[]` — for every store state. -/
theorem c10_wrapper_totality :
    (∀ db : DBState, processHashtags db .null = [] ∧ processHashtags db .undef = []) ∧
    (∀ (db : DBState) (s : String),
      processHashtags db (.str s) = processHashtags db (.arr [.str s])) ∧
    (∀ (db : DBState) (fields : List (String × JVal)),
      processHashtags db (.obj fields) =
        originalProcessHashtags db ((fields.map (fun p => p.2)).filter jtruthy)) ∧
    (∀ (db : DBState) (b : Bool) (m e : Int),
      processHashtags db (.bool b) = [] ∧ processHashtags db (.num m e) = []) := by
  refine ⟨fun db => ⟨rfl, rfl⟩, fun db s => ?_, fun db fields => rfl, fun db b m e => ⟨?_, ?_⟩⟩
  · by_cases hs : s = ""
    · subst hs
      cases db <;> rfl
    · have hne : s.data.isEmpty = false := by
        cases hd : s.data with
        | nil => exact absurd (by apply String.ext; rw [hd]) hs
        | cons a l => rfl
      simp [processHashtags, jtruthy, hne]
  · cases b <;> rfl
  · show processHashtags db (.num m e) = []
    unfold processHashtags
    split
    · rfl
    · rfl

/-! ## Claim C8 -/

/-- C8 — a segment whose trimmed text fails to `JSON.parse` is simply
skipped: processing of every surrounding segment is unchanged, the
handler state and emitted events are exactly those of the same arrival
without the malformed segment, and in particular no abort occurs
because of it. -/
theorem c8_malformed_segment_skipped (db : DBState) (c : Core) (evs : List SEvent)
    (segs1 segs2 : List (List Char)) (bad : List Char)
    (h : parseJsonLine (trimL bad) = none) :
    runSegs db c evs (segs1 ++ bad :: segs2) = runSegs db c evs (segs1 ++ segs2) := by
  induction segs1 generalizing c evs with
  | nil =>
    simp only [List.nil_append, runSegs, h]
    split <;> rfl
  | cons seg rest ih =>
    simp only [List.cons_append, runSegs]
    split
    · exact ih _ _
    · split
      · exact ih _ _
      · exact ih _ _
      · split
        · exact ih _ _
        · exact ih _ _

/-- C8 witness — a garbage segment between two well-formed ones leaves
the run unchanged. -/
theorem c8_malformed_segment_skipped_witness :
    runSegs (.ok [] []) { fullResponse := "", chunkCount := 0, contentExtracted := false } []
        (["\x7b\x22response\x22:\x22a\x22\x7d".data, "\x7boops".data,
          "\x7b\x22response\x22:\x22b\x22\x7d".data]) =
      runSegs (.ok [] []) { fullResponse := "", chunkCount := 0, contentExtracted := false } []
        (["\x7b\x22response\x22:\x22a\x22\x7d".data, "\x7b\x22response\x22:\x22b\x22\x7d".data]) :=
  c8_malformed_segment_skipped (.ok [] [])
    { fullResponse := "", chunkCount := 0, contentExtracted := false } []
    ["\x7b\x22response\x22:\x22a\x22\x7d".data] ["\x7b\x22response\x22:\x22b\x22\x7d".data]
    "\x7boops".data rfl

/-! ## Supporting lemmas about the parse buffer -/

theorem takeWhile_eq_self_of_all {q : Char → Bool} {l : List Char}
    (h : ∀ a ∈ l, q a = true) : l.takeWhile q = l := by
  induction l with
  | nil => rfl
  | cons a rest ih =>
    rw [List.takeWhile_cons_of_pos (h a (List.mem_cons_self a rest))]
    rw [ih (fun b hb => h b (List.mem_cons_of_mem a hb))]

theorem takeWhile_length_eq {q : Char → Bool} {l : List Char}
    (h : (l.takeWhile q).length = l.length) : l.takeWhile q = l := by
  have happ := List.takeWhile_append_dropWhile (p := q) (l := l)
  have hlen := congrArg List.length happ
  rw [List.length_append] at hlen
  have hd : (l.dropWhile q).length = 0 := by omega
  rw [List.length_eq_zero] at hd
  conv_rhs => rw [← happ]
  rw [hd, List.append_nil]

/-- Text before a newline never influences the text after the last
newline. -/
theorem afterLastNL_append_newline (x r : List Char) :
    afterLastNL (x ++ '\n' :: r) = afterLastNL r := by
  unfold afterLastNL
  congr 1
  have hrw : (x ++ '\n' :: r).reverse = r.reverse ++ ('\n' :: x.reverse) := by
    simp
  rw [hrw, List.takeWhile_append]
  split
  · rename_i hlen
    rw [takeWhile_length_eq hlen, List.takeWhile_cons_of_neg (by simp), List.append_nil]
  · rfl

/-- `afterLastNL` only depends on the text after the last newline of
its first block. -/
theorem afterLastNL_afterLastNL_append (p c : List Char) :
    afterLastNL (afterLastNL p ++ c) = afterLastNL (p ++ c) := by
  unfold afterLastNL
  congr 1
  rw [List.reverse_append, List.reverse_reverse, List.reverse_append,
    List.takeWhile_append, List.takeWhile_append]
  split
  · congr 1
    exact List.takeWhile_idem
  · rfl

/-- The retained remainder of the newline scan is exactly the text
after the last newline. -/
theorem splitGo_snd {racc l : List Char} (h : '\n' ∉ racc) :
    (splitGo racc l).2 = afterLastNL (racc.reverse ++ l) := by
  induction l generalizing racc with
  | nil =>
    rw [List.append_nil]
    show racc.reverse = afterLastNL racc.reverse
    unfold afterLastNL
    rw [List.reverse_reverse,
      takeWhile_eq_self_of_all (fun a ha => by
        simp only [Bool.not_eq_true']
        exact decide_eq_false (fun hEq => h (hEq ▸ ha)))]
  | cons ch rest ih =>
    by_cases hc : ch = '\n'
    · subst hc
      simp only [splitGo, if_pos rfl]
      rw [@ih [] (by simp)]
      rw [List.reverse_nil, List.nil_append]
      exact (afterLastNL_append_newline racc.reverse rest).symm
    · simp only [splitGo, if_neg hc]
      rw [@ih (ch :: racc) (by
        intro hm
        rcases List.mem_cons.mp hm with hEq | hmem
        · exact hc hEq.symm
        · exact h hmem)]
      congr 1
      simp

theorem splitSegs_snd (l : List Char) : (splitSegs l).2 = afterLastNL l := by
  have := @splitGo_snd [] l (by simp)
  simpa [splitSegs] using this

/-- Buffer invariant along a run: starting from a state whose buffer
is the tail of `p` after its last newline, after feeding `chunks` the
buffer is the tail of `p` followed by all the fed text. -/
theorem runFold_buffer (db : DBState) (chunks : List String) :
    ∀ (acc : RunAcc) (p : List Char),
      acc.st.buffer = afterLastNL p →
      (List.foldl (runStep db) acc chunks).st.buffer =
        afterLastNL (p ++ (chunks.map String.data).flatten) := by
  induction chunks with
  | nil =>
    intro acc p hb
    simpa using hb
  | cons ch rest ih =>
    intro acc p hb
    rw [List.foldl_cons]
    have hbuf : (runStep db acc ch).st.buffer = afterLastNL (p ++ ch.data) := by
      unfold runStep onData
      simp only
      rw [splitSegs_snd, hb]
      exact afterLastNL_afterLastNL_append p ch.data
    rw [ih (runStep db acc ch) (p ++ ch.data) hbuf]
    simp

/-! ## Claim C9 -/

/-- C9 — after every data-arrival step the parse buffer holds exactly
the trailing portion of the input received so far that follows the
last consumed newline, for every sequence and partitioning of incoming
chunks; an incomplete trailing segment (no newline yet) is retained,
never discarded.  (Quantifying over all chunk sequences makes this a
statement about every step: each step is the last step of its own
prefix of arrivals.  Per-segment failures — malformed JSON, or the
`TypeError` a JSON `null` segment raises at `data.response` — are
contained by the segment-level `catch`, so the buffer update at lines
448-453 always runs.) -/
theorem c9_buffer_invariant (db : DBState) (chunks : List String) :
    (runChunks db chunks).st.buffer = afterLastNL ((chunks.map String.data).flatten) := by
  have := runFold_buffer db chunks { st := initialSState, evs := [] } [] rfl
  simpa [runChunks] using this

end OllamaChat
